import Mathlib

/-!
Shallow embedding of `src/mining/hashimoto.py` (Hashimoto / Dagger proof of
work prototype) and verification of its stated properties.

Modelling conventions:
* Byte strings (seeds, headers, hash digests) are `List ℕ`, one natural per
  byte; the code never needs the bytes to be below 256, so we do not enforce it.
* The 256-bit sponge `sha3` is consumed as an abstract primitive: every
  function that calls it takes an argument `H : List ℕ → ℕ` standing for
  `lambda s, decode_int(sha3_256(s).digest())`.  Where a claim needs the range
  fact "`H` produces a 256-bit value" it is a hypothesis `H seed < 2 ^ 256`.
* Python integers are mathematical integers; all values handled by the code
  are nonnegative, so they are embedded as `ℕ`.  The truncated subtractions
  in `posHigh`/`posLow` coincide with integer subtraction in the regime
  `d ≥ 2`, `i ≥ 1` of the claims (lemma `f_of_le`): there `f_of d i ≤ i` and
  `c % f < f`, so no subtraction underflows.
* Python list mutation is embedded by explicit state passing; the memoization
  dict `known` of the quick calculator is a function `ℕ → Option ℕ` threaded
  through the recursion, and the per-seed cache of `light_hashimoto` is a
  function `List ℕ → ℕ → Option ℕ`.
* The recursion of `quick_calc_k2dr` is embedded with an explicit fuel
  parameter (`calcFuel`), structurally recursive so that it evaluates; fuel
  `pos + 1` always suffices (theorem for claim C8), since on the domain the
  code reaches (`d ≥ 2`, index `0` memoized) every recursive call strictly
  decreases the index.  The out-of-fuel branch returns a junk value and is
  reachable only where the Python original diverges or raises.
* The unbounded `while 1` loop of `mine` is likewise embedded with fuel.
-/

/-- The modulus: `P = (2**256 - 4294968273)**2` (line 74 of the source). -/
def P : ℕ := (2 ^ 256 - 4294968273) ^ 2

/-- The tuning-parameter record (class `params` in the source).  `memory` and
`k` are carried for completeness although the k2dr functions never read them
(`k` is hard wired to two dependencies). -/
structure Params where
  memory : ℕ
  numdags : ℕ
  dag_size : ℕ
  lookups : ℕ
  diff : ℕ
  k : ℕ
  d : ℕ
  w : ℕ

/-- `decode_int(s)`: big-endian interpretation of a byte string,
`o = 0; for c in s: o = o * 256 + c`. -/
def decode_int (s : List ℕ) : ℕ :=
  s.foldl (fun o c => o * 256 + c) 0

/-- The loop of `encode_int`: repeat `n` times
`o = chr(x % 256) + o; x //= 256`. -/
def encodeLoop : ℕ → ℕ → List ℕ → List ℕ
  | 0, _, o => o
  | n + 1, x, o => encodeLoop n (x / 256) (x % 256 :: o)

/-- `encode_int(x)`: `x` as exactly 64 big-endian bytes. -/
def encode_int (x : ℕ) : List ℕ :=
  encodeLoop 64 x []

/-- `f = i/d + 1` (Python 2 integer division), the window width of the k2dr
dependency rule. -/
def f_of (d i : ℕ) : ℕ := i / d + 1

/-- The high-window dependency index, `pos = i - f + curpicker % f`. -/
def posHigh (d i curpicker : ℕ) : ℕ :=
  i - f_of d i + curpicker % f_of d i

/-- The low-window dependency index computed after `curpicker >>= 10`,
`pos = f - curpicker % f - 1`. -/
def posLow (d i curpicker : ℕ) : ℕ :=
  f_of d i - (curpicker >>> 10) % f_of d i - 1

/-- One iteration of the `produce_dag_k2dr` loop at index `i`: state is the
pair (list `o` built so far, current `picker`).  Mirrors lines 123-135 of the
source: `picker = (picker * init) % P`, both dependency positions from
`curpicker = picker`, then `o.append(pow(x, w, P))`. -/
def dagStep (w d init : ℕ) (st : List ℕ × ℕ) (i : ℕ) : List ℕ × ℕ :=
  let picker := st.2 * init % P
  let x := st.1.getD (posHigh d i picker) 0 ||| st.1.getD (posLow d i picker) 0
  (st.1 ++ [x ^ w % P], picker)

/-- The whole producer loop `for i in range(1, n + 1)` starting from
`o = [init]`, `picker = 1`. -/
def dagLoop (w d init : ℕ) (n : ℕ) : List ℕ × ℕ :=
  (List.range' 1 n).foldl (dagStep w d init) ([init], 1)

/-- `produce_dag_k2dr(params, seed)`: the DAG list, entry `0` being
`sha3(seed)**2` and the loop running `for i in range(1, params.dag_size)`. -/
def produce_dag_k2dr (H : List ℕ → ℕ) (p : Params) (seed : List ℕ) : List ℕ :=
  (dagLoop p.w p.d ((H seed) ^ 2) (p.dag_size - 1)).1

/-- `produce_dag = produce_dag_k2dr` (line 161 of the source). -/
def produce_dag (H : List ℕ → ℕ) (p : Params) (seed : List ℕ) : List ℕ :=
  produce_dag_k2dr H p seed

/-- The inner recursion `calc(i)` of `quick_calc_k2dr`, with explicit fuel and
the memo map threaded through.  On a memo miss: `curpicker = pow(init, i, P)`,
recurse on the high position, shift, recurse on the low position, then
`known[i] = pow(x, w, P)`.  Out of fuel returns a junk `0` (the Python
original diverges or raises exactly there). -/
def calcFuel (w d init : ℕ) : ℕ → ℕ → (ℕ → Option ℕ) → ℕ × (ℕ → Option ℕ)
  | 0, _, known => (0, known)
  | fuel + 1, i, known =>
    match known i with
    | some v => (v, known)
    | none =>
      let curpicker := init ^ i % P
      let r1 := calcFuel w d init fuel (posHigh d i curpicker) known
      let r2 := calcFuel w d init fuel (posLow d i curpicker) r1.2
      let v := (r1.1 ||| r2.1) ^ w % P
      (v, fun j => if j = i then some v else r2.2 j)

/-- `quick_calc_k2dr(params, seed, pos, known)` returning both the value and
the final state of the (mutated in place, in Python) memo map.  The function
first sets `known[0] = init` where `init = sha3(seed) ** 2`, then runs
`calc(pos)`; fuel `pos + 1` always suffices on the reachable domain. -/
def quick_calc_full (H : List ℕ → ℕ) (p : Params) (seed : List ℕ) (pos : ℕ)
    (known : ℕ → Option ℕ) : ℕ × (ℕ → Option ℕ) :=
  calcFuel p.w p.d ((H seed) ^ 2) (pos + 1) pos
    (fun j => if j = 0 then some ((H seed) ^ 2) else known j)

/-- `quick_calc_k2dr`'s return value `o = calc(pos)`. -/
def quick_calc_k2dr (H : List ℕ → ℕ) (p : Params) (seed : List ℕ) (pos : ℕ)
    (known : ℕ → Option ℕ) : ℕ :=
  (quick_calc_full H p seed pos known).1

/-- `quick_calc = quick_calc_k2dr` (line 162 of the source). -/
def quick_calc (H : List ℕ → ℕ) (p : Params) (seed : List ℕ) (pos : ℕ)
    (known : ℕ → Option ℕ) : ℕ :=
  quick_calc_k2dr H p seed pos known

/-- `get_daggerset(params, seedset) = [produce_dag(params, i) for i in seedset]`. -/
def get_daggerset (H : List ℕ → ℕ) (p : Params) (seedset : List (List ℕ)) :
    List (List ℕ) :=
  seedset.map (produce_dag H p)

/-- The slot index chosen by `update_daggerset`:
`idx = decode_int(seed) % len(daggerset)`. -/
def update_idx (daggerset : List (List ℕ)) (seed : List ℕ) : ℕ :=
  decode_int seed % daggerset.length

/-- `update_daggerset(params, daggerset, seedset, seed)`: in-place mutation of
the two lists, embedded as returning the new pair
(daggerset, seedset). -/
def update_daggerset (H : List ℕ → ℕ) (p : Params)
    (daggerset seedset : List (List ℕ)) (seed : List ℕ) :
    List (List ℕ) × List (List ℕ) :=
  (daggerset.set (update_idx daggerset seed) (produce_dag H p seed),
   seedset.set (update_idx daggerset seed) seed)

/-- One iteration of the `hashimoto` loop:
`dag = daggerset[mix % num_dags]; pos = mix % dag_size; mix ^= dag[pos]`. -/
def fastStep (daggerset : List (List ℕ)) (num_dags dag_size : ℕ) (mix : ℕ)
    (_ : ℕ) : ℕ :=
  mix ^^^ (daggerset.getD (mix % num_dags) []).getD (mix % dag_size) 0

/-- `hashimoto(daggerset, lookups, header, nonce)`: starting from
`mix = sha3(header + encode_int(nonce)) ** 2`, repeat the lookup step
`lookups` times with `num_dags = len(daggerset)` and
`dag_size = len(daggerset[0])`. -/
def hashimoto (H : List ℕ → ℕ) (daggerset : List (List ℕ)) (lookups : ℕ)
    (header : List ℕ) (nonce : ℕ) : ℕ :=
  (List.range lookups).foldl
    (fastStep daggerset daggerset.length (daggerset.getD 0 []).length)
    ((H (header ++ encode_int nonce)) ^ 2)

/-- One iteration of the `light_hashimoto` loop: pick
`seed = seedset[mix % len(seedset)]`, fetch the entry at `mix % dag_size`
through the quick calculator using (and updating) that seed's memo map, and
xor it into the mix. -/
def lightStep (H : List ℕ → ℕ) (p : Params) (seedset : List (List ℕ))
    (st : ℕ × (List ℕ → ℕ → Option ℕ)) (_ : ℕ) :
    ℕ × (List ℕ → ℕ → Option ℕ) :=
  let seed := seedset.getD (st.1 % seedset.length) []
  let r := quick_calc_full H p seed (st.1 % p.dag_size) (st.2 seed)
  (st.1 ^^^ r.1, fun s => if s = seed then r.2 else st.2 s)

/-- `light_hashimoto(params, seedset, header, nonce)`: same loop as
`hashimoto`, fetching each entry through `quick_calc` with a per-seed memo map
(`known = dict((s, {}) for s in seedset)`) kept across the lookups. -/
def light_hashimoto (H : List ℕ → ℕ) (p : Params) (seedset : List (List ℕ))
    (header : List ℕ) (nonce : ℕ) : ℕ :=
  ((List.range p.lookups).foldl (lightStep H p seedset)
    ((H (header ++ encode_int nonce)) ^ 2, fun _ _ => none)).1

/-- `light_verify(params, seedset, header, nonce)`: accept iff the light mix is
at most `2**512 / params.diff`. -/
def light_verify (H : List ℕ → ℕ) (p : Params) (seedset : List (List ℕ))
    (header : List ℕ) (nonce : ℕ) : Bool :=
  decide (light_hashimoto H p seedset header nonce ≤ 2 ^ 512 / p.diff)

/-- `mine(daggerset, params, header, nonce)`: try nonces upward from `nonce`
until the mix meets the difficulty bound; the unbounded `while 1` is embedded
with fuel (`none` = not found within `fuel` attempts). -/
def mine (H : List ℕ → ℕ) (daggerset : List (List ℕ)) (p : Params)
    (header : List ℕ) : ℕ → ℕ → Option ℕ
  | _, 0 => none
  | nonce, fuel + 1 =>
    if hashimoto H daggerset p.lookups header nonce ≤ 2 ^ 512 / p.diff then
      some nonce
    else
      mine H daggerset p header (nonce + 1) fuel

/-! ### Step lemmas for the quick-calculator recursion -/

lemma calcFuel_succ_hit (w d init fuel i : ℕ) (known : ℕ → Option ℕ) (v : ℕ)
    (hki : known i = some v) :
    calcFuel w d init (fuel + 1) i known = (v, known) := by
  simp only [calcFuel, hki]

lemma calcFuel_succ_miss (w d init fuel i : ℕ) (known : ℕ → Option ℕ)
    (hki : known i = none) :
    calcFuel w d init (fuel + 1) i known =
      (((calcFuel w d init fuel (posHigh d i (init ^ i % P)) known).1 |||
        (calcFuel w d init fuel (posLow d i (init ^ i % P))
          (calcFuel w d init fuel (posHigh d i (init ^ i % P)) known).2).1) ^ w % P,
       fun j =>
         if j = i then
           some (((calcFuel w d init fuel (posHigh d i (init ^ i % P)) known).1 |||
             (calcFuel w d init fuel (posLow d i (init ^ i % P))
               (calcFuel w d init fuel (posHigh d i (init ^ i % P)) known).2).1) ^ w % P)
         else
           (calcFuel w d init fuel (posLow d i (init ^ i % P))
             (calcFuel w d init fuel (posHigh d i (init ^ i % P)) known).2).2 j) := by
  simp only [calcFuel, hki]

/-! ### Basic facts about the modulus and the dependency indices -/

lemma one_lt_P : 1 < P := by norm_num [P]

lemma P_pos : 0 < P := Nat.lt_of_lt_of_le Nat.zero_lt_one (Nat.le_of_lt one_lt_P)

lemma f_of_pos (d i : ℕ) : 0 < f_of d i := Nat.succ_pos _

lemma f_of_le (d i : ℕ) (hd : 2 ≤ d) (hi : 1 ≤ i) : f_of d i ≤ i := by
  have h := Nat.div_lt_self (show 0 < i by omega) (show 1 < d by omega)
  unfold f_of
  omega

lemma posHigh_lt (d i c : ℕ) (hd : 2 ≤ d) (hi : 1 ≤ i) : posHigh d i c < i := by
  have h1 := f_of_le d i hd hi
  have h2 : c % f_of d i < f_of d i := Nat.mod_lt _ (f_of_pos d i)
  unfold posHigh
  omega

lemma posHigh_ge (d i c : ℕ) : i - i / d - 1 ≤ posHigh d i c := by
  unfold posHigh f_of
  omega

lemma posLow_le (d i c : ℕ) : posLow d i c ≤ i / d := by
  have h2 : (c >>> 10) % f_of d i < f_of d i := Nat.mod_lt _ (f_of_pos d i)
  unfold posLow f_of at h2 ⊢
  omega

lemma posLow_lt (d i c : ℕ) (hd : 2 ≤ d) (hi : 1 ≤ i) : posLow d i c < i := by
  have h1 := posLow_le d i c
  have h2 := Nat.div_lt_self (show 0 < i by omega) (show 1 < d by omega)
  omega

/-! ### The producer loop: length, picker closed form, entry recurrence -/

lemma getD_concat_self (l : List ℕ) (a : ℕ) : (l ++ [a]).getD l.length 0 = a := by
  simp [List.getD_eq_getElem?_getD, List.getElem?_append_right]

lemma dagLoop_succ (w d init n : ℕ) :
    dagLoop w d init (n + 1) = dagStep w d init (dagLoop w d init n) (n + 1) := by
  unfold dagLoop
  rw [List.range'_concat, List.foldl_append]
  simp [Nat.add_comm]

lemma dagLoop_length (w d init n : ℕ) : (dagLoop w d init n).1.length = n + 1 := by
  induction n with
  | zero => rfl
  | succ n ih =>
    rw [dagLoop_succ]
    show ((dagLoop w d init n).1 ++ [_]).length = n + 1 + 1
    simp [ih]

lemma dagLoop_picker (w d init n : ℕ) : (dagLoop w d init n).2 = init ^ n % P := by
  induction n with
  | zero =>
    show (1 : ℕ) = init ^ 0 % P
    rw [pow_zero, Nat.mod_eq_of_lt one_lt_P]
  | succ n ih =>
    rw [dagLoop_succ]
    show (dagLoop w d init n).2 * init % P = init ^ (n + 1) % P
    rw [ih, Nat.mod_mul_mod, ← Nat.pow_succ]

lemma dagLoop_succ_list (w d init n : ℕ) :
    (dagLoop w d init (n + 1)).1 =
      (dagLoop w d init n).1 ++
        [((dagLoop w d init n).1.getD (posHigh d (n + 1) (init ^ (n + 1) % P)) 0 |||
          (dagLoop w d init n).1.getD (posLow d (n + 1) (init ^ (n + 1) % P)) 0) ^ w % P] := by
  have hp : (dagLoop w d init n).2 * init % P = init ^ (n + 1) % P := by
    rw [dagLoop_picker, Nat.mod_mul_mod, ← Nat.pow_succ]
  rw [dagLoop_succ]
  show ((dagLoop w d init n).1 ++ [_], _).1 = _
  rw [hp]

lemma dagLoop_getD_stable (w d init n i : ℕ) (h : i ≤ n) :
    (dagLoop w d init (n + 1)).1.getD i 0 = (dagLoop w d init n).1.getD i 0 := by
  rw [dagLoop_succ_list]
  exact List.getD_append _ _ _ _ (by rw [dagLoop_length]; omega)

lemma dagLoop_getD_zero (w d init n : ℕ) : (dagLoop w d init n).1.getD 0 0 = init := by
  induction n with
  | zero => rfl
  | succ n ih => rw [dagLoop_getD_stable w d init n 0 (Nat.zero_le n)]; exact ih

lemma dagLoop_rec (w d init : ℕ) (hd : 2 ≤ d) (n : ℕ) :
    ∀ i, 1 ≤ i → i ≤ n →
      (dagLoop w d init n).1.getD i 0 =
        ((dagLoop w d init n).1.getD (posHigh d i (init ^ i % P)) 0 |||
         (dagLoop w d init n).1.getD (posLow d i (init ^ i % P)) 0) ^ w % P := by
  induction n with
  | zero => intro i hi hin; omega
  | succ n ih =>
    intro i hi hin
    have hH := posHigh_lt d i (init ^ i % P) hd hi
    have hL := posLow_lt d i (init ^ i % P) hd hi
    rcases Nat.lt_or_ge i (n + 1) with hlt | hge
    · have hin' : i ≤ n := by omega
      rw [dagLoop_getD_stable w d init n i hin',
          dagLoop_getD_stable w d init n _ (by omega),
          dagLoop_getD_stable w d init n _ (by omega)]
      exact ih i hi hin'
    · have hieq : i = n + 1 := by omega
      subst hieq
      rw [dagLoop_getD_stable w d init n (posHigh d (n + 1) (init ^ (n + 1) % P)) (by omega),
          dagLoop_getD_stable w d init n (posLow d (n + 1) (init ^ (n + 1) % P)) (by omega)]
      have hlen : (dagLoop w d init n).1.length = n + 1 := dagLoop_length w d init n
      have hv := getD_concat_self (dagLoop w d init n).1
        (((dagLoop w d init n).1.getD (posHigh d (n + 1) (init ^ (n + 1) % P)) 0 |||
          (dagLoop w d init n).1.getD (posLow d (n + 1) (init ^ (n + 1) % P)) 0) ^ w % P)
      rw [hlen] at hv
      rw [dagLoop_succ_list, hv]

lemma dagLoop_getD_lt (w d init n : ℕ) :
    ∀ i, 1 ≤ i → (dagLoop w d init n).1.getD i 0 < P := by
  induction n with
  | zero =>
    intro i hi
    have : (dagLoop w d init 0).1.getD i 0 = 0 := by
      apply List.getD_eq_default
      rw [dagLoop_length]
      omega
    rw [this]
    exact P_pos
  | succ n ih =>
    intro i hi
    rcases Nat.lt_or_ge i (n + 1) with hlt | hge
    · rw [dagLoop_getD_stable w d init n i (by omega)]
      exact ih i hi
    · rcases Nat.lt_or_ge i (n + 2) with hlt2 | hge2
      · have hieq : i = n + 1 := by omega
        subst hieq
        rw [dagLoop_succ_list]
        have hlen : (dagLoop w d init n).1.length = n + 1 := dagLoop_length w d init n
        rw [← hlen, getD_concat_self]
        exact Nat.mod_lt _ P_pos
      · have : (dagLoop w d init (n + 1)).1.getD i 0 = 0 := by
          apply List.getD_eq_default
          rw [dagLoop_length]
          omega
        rw [this]
        exact P_pos


/-! ### Correctness of the memoized recursion against the produced DAG -/

lemma calc_correct (w d init n : ℕ) (hd : 2 ≤ d) :
    ∀ fuel i m, i ≤ n → i + 1 ≤ fuel →
      (∀ j v, j ≤ n → m j = some v → v = (dagLoop w d init n).1.getD j 0) →
      m 0 = some init →
      (calcFuel w d init fuel i m).1 = (dagLoop w d init n).1.getD i 0 ∧
      (∀ j v, j ≤ n → (calcFuel w d init fuel i m).2 j = some v →
        v = (dagLoop w d init n).1.getD j 0) ∧
      (calcFuel w d init fuel i m).2 0 = some init := by
  intro fuel
  induction fuel with
  | zero => intro i m hin hfuel; omega
  | succ fuel ih =>
    intro i m hin hfuel hgood h0
    cases hki : m i with
    | some v =>
      rw [calcFuel_succ_hit w d init fuel i m v hki]
      exact ⟨hgood i v hin hki, hgood, h0⟩
    | none =>
      have hi : 1 ≤ i := by
        rcases Nat.eq_zero_or_pos i with h | h
        · subst h; rw [h0] at hki; cases hki
        · exact h
      have hH := posHigh_lt d i (init ^ i % P) hd hi
      have hL := posLow_lt d i (init ^ i % P) hd hi
      obtain ⟨ih1v, ih1g, ih10⟩ :=
        ih (posHigh d i (init ^ i % P)) m (by omega) (by omega) hgood h0
      obtain ⟨ih2v, ih2g, ih20⟩ :=
        ih (posLow d i (init ^ i % P))
          (calcFuel w d init fuel (posHigh d i (init ^ i % P)) m).2
          (by omega) (by omega) ih1g ih10
      rw [calcFuel_succ_miss w d init fuel i m hki]
      have hval :
          ((calcFuel w d init fuel (posHigh d i (init ^ i % P)) m).1 |||
            (calcFuel w d init fuel (posLow d i (init ^ i % P))
              (calcFuel w d init fuel (posHigh d i (init ^ i % P)) m).2).1) ^ w % P =
            (dagLoop w d init n).1.getD i 0 := by
        rw [ih1v, ih2v, dagLoop_rec w d init hd n i hi hin]
      refine ⟨hval, ?_, ?_⟩
      · intro j v hj hmj
        by_cases hji : j = i
        · subst hji
          simp only [if_pos rfl] at hmj
          cases hmj
          exact hval
        · simp only [if_neg hji] at hmj
          exact ih2g j v hj hmj
      · have h0i : (0 : ℕ) ≠ i := by omega
        simp only [if_neg h0i]
        exact ih20

lemma calcFuel_isSome_mono (w d init : ℕ) :
    ∀ fuel i m j, (m j).isSome → (((calcFuel w d init fuel i m).2) j).isSome := by
  intro fuel
  induction fuel with
  | zero => intro i m j h; exact h
  | succ fuel ih =>
    intro i m j h
    cases hki : m i with
    | some v => rw [calcFuel_succ_hit w d init fuel i m v hki]; exact h
    | none =>
      rw [calcFuel_succ_miss w d init fuel i m hki]
      by_cases hji : j = i
      · subst hji; simp
      · simp only [if_neg hji]
        exact ih _ _ j (ih _ _ j h)

lemma calcFuel_irrel (w d init : ℕ) (hd : 2 ≤ d) :
    ∀ i f g m, i + 1 ≤ f → i + 1 ≤ g → (m 0).isSome →
      calcFuel w d init f i m = calcFuel w d init g i m := by
  intro i
  induction i using Nat.strong_induction_on with
  | _ i ih =>
    intro f g m hf hg h0
    obtain ⟨f', rfl⟩ : ∃ f', f = f' + 1 := ⟨f - 1, by omega⟩
    obtain ⟨g', rfl⟩ : ∃ g', g = g' + 1 := ⟨g - 1, by omega⟩
    cases hki : m i with
    | some v =>
      rw [calcFuel_succ_hit w d init f' i m v hki, calcFuel_succ_hit w d init g' i m v hki]
    | none =>
      have hi : 1 ≤ i := by
        rcases Nat.eq_zero_or_pos i with h | h
        · subst h; rw [hki] at h0; cases h0
        · exact h
      have hH := posHigh_lt d i (init ^ i % P) hd hi
      have hL := posLow_lt d i (init ^ i % P) hd hi
      rw [calcFuel_succ_miss w d init f' i m hki, calcFuel_succ_miss w d init g' i m hki]
      have e1 : calcFuel w d init f' (posHigh d i (init ^ i % P)) m =
          calcFuel w d init g' (posHigh d i (init ^ i % P)) m :=
        ih _ hH f' g' m (by omega) (by omega) h0
      rw [e1]
      have h0' : ((calcFuel w d init g' (posHigh d i (init ^ i % P)) m).2 0).isSome :=
        calcFuel_isSome_mono w d init g' _ m 0 h0
      have e2 : calcFuel w d init f' (posLow d i (init ^ i % P))
            (calcFuel w d init g' (posHigh d i (init ^ i % P)) m).2 =
          calcFuel w d init g' (posLow d i (init ^ i % P))
            (calcFuel w d init g' (posHigh d i (init ^ i % P)) m).2 :=
        ih _ hL f' g' _ (by omega) (by omega) h0'
      rw [e2]

/-! ### Bridge lemmas restated on `produce_dag` -/

lemma produce_dag_length (H : List ℕ → ℕ) (p : Params) (seed : List ℕ)
    (hds : 1 ≤ p.dag_size) : (produce_dag H p seed).length = p.dag_size := by
  show (dagLoop p.w p.d ((H seed) ^ 2) (p.dag_size - 1)).1.length = p.dag_size
  rw [dagLoop_length]
  omega

lemma produce_dag_getD_zero (H : List ℕ → ℕ) (p : Params) (seed : List ℕ) :
    (produce_dag H p seed).getD 0 0 = (H seed) ^ 2 :=
  dagLoop_getD_zero p.w p.d ((H seed) ^ 2) (p.dag_size - 1)

/-! ### Shared concrete instances for witnesses and counterexamples -/

def HW : List ℕ → ℕ := fun _ => 2

def Hzero : List ℕ → ℕ := fun _ => 0

def Hbad : List ℕ → ℕ := fun _ => 2 ^ 256 - 1

def pW : Params := ⟨0, 2, 3, 2, 1, 2, 2, 2⟩

def pOne : Params := ⟨0, 1, 1, 0, 1, 2, 2, 2⟩

/-- The map passed to the inner recursion (the caller's map overwritten at key
`0` with `init`) is a faithful partial view of the produced DAG whenever the
caller's map is faithful away from key `0`. -/
lemma seeded_map_good (H : List ℕ → ℕ) (p : Params) (seed : List ℕ)
    (m : ℕ → Option ℕ)
    (hgood : ∀ j v, j ≠ 0 → j ≤ p.dag_size - 1 → m j = some v →
      v = (produce_dag H p seed).getD j 0) :
    ∀ j v, j ≤ p.dag_size - 1 →
      (fun i => if i = 0 then some ((H seed) ^ 2) else m i) j = some v →
      v = (dagLoop p.w p.d ((H seed) ^ 2) (p.dag_size - 1)).1.getD j 0 := by
  intro j v hj hmj
  by_cases hj0 : j = 0
  · subst hj0
    simp at hmj
    have hz := dagLoop_getD_zero p.w p.d ((H seed) ^ 2) (p.dag_size - 1)
    omega
  · simp [hj0] at hmj
    exact hgood j v hj0 hj hmj

/-- `quick_calc` agrees with the produced DAG whenever its extra map is
faithful to that DAG away from key `0` (key `0` is overwritten). -/
lemma quick_calc_eq_dag (H : List ℕ → ℕ) (p : Params) (seed : List ℕ)
    (pos : ℕ) (m : ℕ → Option ℕ) (hd : 2 ≤ p.d) (hpos : pos < p.dag_size)
    (hgood : ∀ j v, j ≠ 0 → j ≤ p.dag_size - 1 → m j = some v →
      v = (produce_dag H p seed).getD j 0) :
    quick_calc H p seed pos m = (produce_dag H p seed).getD pos 0 := by
  obtain ⟨h1, -, -⟩ := calc_correct p.w p.d ((H seed) ^ 2) (p.dag_size - 1) hd
    (pos + 1) pos (fun j => if j = 0 then some ((H seed) ^ 2) else m j)
    (by omega) (by omega)
    (seeded_map_good H p seed m hgood)
    (by simp)
  exact h1

/-! ### Claim theorems -/

/-- C1: for valid params (`d ≥ 2`) and any `pos < dag_size`, `quick_calc` on a
fresh map (empty or preseeded only at key `0`) returns exactly
`produce_dag(params, seed)[pos]`. -/
theorem C1_quick_calc_parity (H : List ℕ → ℕ) (p : Params) (seed : List ℕ)
    (pos : ℕ) (m : ℕ → Option ℕ) (hd : 2 ≤ p.d) (hpos : pos < p.dag_size)
    (hm : ∀ j, j ≠ 0 → m j = none) :
    quick_calc H p seed pos m = (produce_dag H p seed).getD pos 0 :=
  quick_calc_eq_dag H p seed pos m hd hpos
    (by intro j v hj0 hj hmj; rw [hm j hj0] at hmj; cases hmj)

/-- C1 witness: a concrete instance of the parity theorem. -/
theorem C1_witness :
    quick_calc HW pW [48] 2 (fun _ => none) = (produce_dag HW pW [48]).getD 2 0 :=
  C1_quick_calc_parity HW pW [48] 2 (fun _ => none) (by decide) (by decide)
    (fun _ _ => rfl)

/-- C3: `produce_dag` returns a list with entry `0` equal to `sha3(seed)^2` and,
for `1 ≤ i < dag_size`, entry `i` equal to
`(o[pos_high] OR o[pos_low])^w mod P` where both positions are computed from
`picker_i = init^i mod P` by the k2dr rule. -/
theorem C3_producer_step_rule (H : List ℕ → ℕ) (p : Params) (seed : List ℕ)
    (hd : 2 ≤ p.d) :
    (produce_dag H p seed).getD 0 0 = (H seed) ^ 2 ∧
    ∀ i, 1 ≤ i → i < p.dag_size →
      (produce_dag H p seed).getD i 0 =
        ((produce_dag H p seed).getD (posHigh p.d i (((H seed) ^ 2) ^ i % P)) 0 |||
         (produce_dag H p seed).getD (posLow p.d i (((H seed) ^ 2) ^ i % P)) 0)
          ^ p.w % P := by
  constructor
  · exact produce_dag_getD_zero H p seed
  · intro i hi hilt
    exact dagLoop_rec p.w p.d ((H seed) ^ 2) hd (p.dag_size - 1) i hi (by omega)

/-- C3 witness: the recurrence evaluated at a concrete index. -/
theorem C3_witness :
    (produce_dag HW pW [48]).getD 2 0 =
      ((produce_dag HW pW [48]).getD (posHigh pW.d 2 (((HW [48]) ^ 2) ^ 2 % P)) 0 |||
       (produce_dag HW pW [48]).getD (posLow pW.d 2 (((HW [48]) ^ 2) ^ 2 % P)) 0)
        ^ pW.w % P :=
  (C3_producer_step_rule HW pW [48] (by decide)).2 2 (by decide) (by decide)

/-- C5: for `d ≥ 2` and `i ≥ 1`, both k2dr dependency indices lie in
`[0, i-1]`; moreover `pos_high ≥ i - ⌊i/d⌋ - 1` (hence `≥ max(0, ...)`, as the
values are naturals) and `pos_low ≤ ⌊i/d⌋`.  In particular every list access
of the producer and every recursive call of the quick calculator targets a
strictly smaller, in-range index. -/
theorem C5_dependency_bounds (d i c c' : ℕ) (hd : 2 ≤ d) (hi : 1 ≤ i) :
    posHigh d i c ≤ i - 1 ∧ i - i / d - 1 ≤ posHigh d i c ∧
    posLow d i c' ≤ i - 1 ∧ posLow d i c' ≤ i / d := by
  have h1 := posHigh_lt d i c hd hi
  have h2 := posHigh_ge d i c
  have h3 := posLow_lt d i c' hd hi
  have h4 := posLow_le d i c'
  omega

/-- C5 witness: bounds at a concrete input. -/
theorem C5_witness :
    posHigh 8 100 12345 ≤ 99 ∧ 100 - 100 / 8 - 1 ≤ posHigh 8 100 12345 ∧
    posLow 8 100 67 ≤ 99 ∧ posLow 8 100 67 ≤ 100 / 8 :=
  C5_dependency_bounds 8 100 12345 67 (by decide) (by decide)

/-- C6 (amended): every entry at index `i ≥ 1` is `< P`; entry `0` is the
square of the 256-bit hash, hence `< 2^512`; entry `0` is `< P` when the hash
value is below `2^256 - 4294968273` (but not for every 256-bit hash value —
see the counterexample). -/
theorem C6_entry_range (H : List ℕ → ℕ) (p : Params) (seed : List ℕ)
    (hH : H seed < 2 ^ 256) :
    (produce_dag H p seed).getD 0 0 < 2 ^ 512 ∧
    (∀ i, 1 ≤ i → (produce_dag H p seed).getD i 0 < P) ∧
    (H seed < 2 ^ 256 - 4294968273 → (produce_dag H p seed).getD 0 0 < P) := by
  refine ⟨?_, ?_, ?_⟩
  · rw [produce_dag_getD_zero]
    calc (H seed) ^ 2 < ((2 : ℕ) ^ 256) ^ 2 :=
          Nat.pow_lt_pow_left hH (by norm_num)
      _ = 2 ^ 512 := by norm_num [← pow_mul]
  · intro i hi
    exact dagLoop_getD_lt p.w p.d ((H seed) ^ 2) (p.dag_size - 1) i hi
  · intro h
    rw [produce_dag_getD_zero]
    exact Nat.pow_lt_pow_left h (by norm_num)

/-- C6 counterexample: for the extreme 256-bit hash value `2^256 - 1`, entry
`0` of the produced DAG is not below `P`, refuting the claim that entry `0`
is always `< P`. -/
theorem C6_counterexample :
    ¬ ((produce_dag Hbad pOne [48]).getD 0 0 < P) := by decide

/-- C6 witness: the amended range facts at a concrete instance. -/
theorem C6_witness :
    (produce_dag HW pW [48]).getD 0 0 < 2 ^ 512 ∧
    (∀ i, 1 ≤ i → (produce_dag HW pW [48]).getD i 0 < P) ∧
    (HW [48] < 2 ^ 256 - 4294968273 → (produce_dag HW pW [48]).getD 0 0 < P) :=
  C6_entry_range HW pW [48] (by norm_num [HW])

/-- C8: the quick-calculator recursion terminates within depth `pos + 1` for
any extra map `m`: with the map preseeded at key `0` (as `quick_calc` itself
does), every fuel bound of at least `pos + 1` computes the same result as
`quick_calc_full`, so the fuel embedding is exact and the recursion is
well-founded on the index. -/
theorem C8_quick_calc_terminates (H : List ℕ → ℕ) (p : Params) (seed : List ℕ)
    (pos : ℕ) (m : ℕ → Option ℕ) (fuel : ℕ) (hd : 2 ≤ p.d)
    (hf : pos + 1 ≤ fuel) :
    calcFuel p.w p.d ((H seed) ^ 2) fuel pos
        (fun j => if j = 0 then some ((H seed) ^ 2) else m j) =
      quick_calc_full H p seed pos m :=
  calcFuel_irrel p.w p.d ((H seed) ^ 2) hd pos fuel (pos + 1)
    (fun j => if j = 0 then some ((H seed) ^ 2) else m j) hf (le_refl _)
    (by simp)

/-- C8 witness: surplus fuel at a concrete input. -/
theorem C8_witness :
    calcFuel pW.w pW.d ((HW [48]) ^ 2) 7 2
        (fun j => if j = 0 then some ((HW [48]) ^ 2) else (fun _ => none) j) =
      quick_calc_full HW pW [48] 2 (fun _ => none) :=
  C8_quick_calc_terminates HW pW [48] 2 (fun _ => none) 7 (by decide) (by decide)

/-! ### Light path versus fast path -/

/-- Both conclusions of `calc_correct` restated on `quick_calc_full`. -/
lemma quick_calc_full_spec (H : List ℕ → ℕ) (p : Params) (seed : List ℕ)
    (pos : ℕ) (m : ℕ → Option ℕ) (hd : 2 ≤ p.d) (hpos : pos < p.dag_size)
    (hgood : ∀ j v, j ≠ 0 → j ≤ p.dag_size - 1 → m j = some v →
      v = (produce_dag H p seed).getD j 0) :
    (quick_calc_full H p seed pos m).1 = (produce_dag H p seed).getD pos 0 ∧
    (∀ j v, j ≤ p.dag_size - 1 → (quick_calc_full H p seed pos m).2 j = some v →
      v = (produce_dag H p seed).getD j 0) := by
  obtain ⟨h1, h2, -⟩ := calc_correct p.w p.d ((H seed) ^ 2) (p.dag_size - 1) hd
    (pos + 1) pos (fun j => if j = 0 then some ((H seed) ^ 2) else m j)
    (by omega) (by omega)
    (seeded_map_good H p seed m hgood)
    (by simp)
  exact ⟨h1, h2⟩

lemma getD_map_lt (f : List ℕ → List ℕ) (l : List (List ℕ)) (i : ℕ)
    (h : i < l.length) : (l.map f).getD i [] = f (l.getD i []) := by
  rw [List.getD_eq_getElem?_getD, List.getD_eq_getElem?_getD, List.getElem?_map,
      List.getElem?_eq_getElem h]
  simp

/-- The light loop tracks the fast loop over the built DAG-set: starting from
the same mix and any faithful cache, after `n` iterations the mixes agree and
the cache stays faithful. -/
lemma light_fast_loop (H : List ℕ → ℕ) (p : Params) (seedset : List (List ℕ))
    (hd : 2 ≤ p.d) (hds : 1 ≤ p.dag_size) (hne : seedset ≠ []) (n : ℕ)
    (mix : ℕ) (K : List ℕ → ℕ → Option ℕ)
    (hK : ∀ s j v, j ≠ 0 → j ≤ p.dag_size - 1 → K s j = some v →
      v = (produce_dag H p s).getD j 0) :
    ((List.range n).foldl (lightStep H p seedset) (mix, K)).1 =
      (List.range n).foldl
        (fastStep (get_daggerset H p seedset) (get_daggerset H p seedset).length
          ((get_daggerset H p seedset).getD 0 []).length) mix ∧
    (∀ s j v, j ≠ 0 → j ≤ p.dag_size - 1 →
      ((List.range n).foldl (lightStep H p seedset) (mix, K)).2 s j = some v →
      v = (produce_dag H p s).getD j 0) := by
  induction n with
  | zero => exact ⟨rfl, hK⟩
  | succ n ih =>
    obtain ⟨ihm, ihg⟩ := ih
    have hL : 0 < seedset.length := List.length_pos.mpr hne
    simp only [List.range_succ, List.foldl_append, List.foldl_cons, List.foldl_nil]
    set A := (List.range n).foldl (lightStep H p seedset) (mix, K) with hA
    set B := (List.range n).foldl
      (fastStep (get_daggerset H p seedset) (get_daggerset H p seedset).length
        ((get_daggerset H p seedset).getD 0 []).length) mix with hB
    have hmodL : A.1 % seedset.length < seedset.length := Nat.mod_lt _ hL
    have hlen1 : (get_daggerset H p seedset).length = seedset.length := by
      unfold get_daggerset
      exact List.length_map seedset (produce_dag H p)
    have hdag : (get_daggerset H p seedset).getD (A.1 % seedset.length) [] =
        produce_dag H p (seedset.getD (A.1 % seedset.length) []) :=
      getD_map_lt (produce_dag H p) seedset _ hmodL
    have hdsz : ((get_daggerset H p seedset).getD 0 []).length = p.dag_size := by
      unfold get_daggerset
      rw [getD_map_lt (produce_dag H p) seedset 0 hL]
      exact produce_dag_length H p _ hds
    have hmodD : A.1 % p.dag_size < p.dag_size := Nat.mod_lt _ (by omega)
    obtain ⟨hv, hg⟩ := quick_calc_full_spec H p
      (seedset.getD (A.1 % seedset.length) []) (A.1 % p.dag_size)
      (A.2 (seedset.getD (A.1 % seedset.length) [])) hd hmodD
      (fun j v hj0 hj hmj => ihg _ j v hj0 hj hmj)
    constructor
    · simp only [lightStep, fastStep]
      rw [← ihm, hlen1, hdsz, hdag, hv]
    · intro s j v hj0 hj hsv
      simp only [lightStep] at hsv
      by_cases hs : s = seedset.getD (A.1 % seedset.length) []
      · subst hs
        simp only [if_pos rfl] at hsv
        exact hg j v hj hsv
      · simp only [if_neg hs] at hsv
        exact ihg s j v hj0 hj hsv

/-- C2: for valid params, `light_hashimoto` over a seed set computes exactly
the mix that `hashimoto` computes over the DAG-set built from those seeds by
`get_daggerset` with `lookups = params.lookups`. -/
theorem C2_light_fast_agreement (H : List ℕ → ℕ) (p : Params)
    (seedset : List (List ℕ)) (header : List ℕ) (nonce : ℕ)
    (hd : 2 ≤ p.d) (hds : 1 ≤ p.dag_size) (hne : seedset ≠ []) :
    light_hashimoto H p seedset header nonce =
      hashimoto H (get_daggerset H p seedset) p.lookups header nonce :=
  (light_fast_loop H p seedset hd hds hne p.lookups
    ((H (header ++ encode_int nonce)) ^ 2) (fun _ _ => none)
    (fun _ _ _ _ _ hmj => by simp at hmj)).1

/-- C2 witness: agreement at a concrete instance. -/
theorem C2_witness :
    light_hashimoto HW pW [[48], [49]] [1] 0 =
      hashimoto HW (get_daggerset HW pW [[48], [49]]) pW.lookups [1] 0 :=
  C2_light_fast_agreement HW pW [[48], [49]] [1] 0 (by decide) (by decide)
    (by decide)

/-! ### The miner and the light verifier -/

lemma mine_spec (H : List ℕ → ℕ) (dset : List (List ℕ)) (p : Params)
    (header : List ℕ) :
    ∀ fuel n0 n, mine H dset p header n0 fuel = some n →
      n0 ≤ n ∧ hashimoto H dset p.lookups header n ≤ 2 ^ 512 / p.diff ∧
      ∀ m, n0 ≤ m → m < n →
        ¬ (hashimoto H dset p.lookups header m ≤ 2 ^ 512 / p.diff) := by
  intro fuel
  induction fuel with
  | zero => intro n0 n h; simp [mine] at h
  | succ fuel ih =>
    intro n0 n h
    rw [show mine H dset p header n0 (fuel + 1) =
        (if hashimoto H dset p.lookups header n0 ≤ 2 ^ 512 / p.diff then some n0
         else mine H dset p header (n0 + 1) fuel) from rfl] at h
    by_cases hp : hashimoto H dset p.lookups header n0 ≤ 2 ^ 512 / p.diff
    · rw [if_pos hp] at h
      obtain rfl : n0 = n := by injection h
      exact ⟨le_refl _, hp, fun m hm1 hm2 => absurd hm2 (by omega)⟩
    · rw [if_neg hp] at h
      obtain ⟨h1, h2, h3⟩ := ih (n0 + 1) n h
      refine ⟨by omega, h2, ?_⟩
      intro m hm1 hm2
      rcases Nat.eq_or_lt_of_le hm1 with heq | hlt
      · rw [← heq]; exact hp
      · exact h3 m (by omega) hm2

/-- C4: if `mine` starting at `n0` returns a nonce `n`, then `n ≥ n0`, its mix
meets the difficulty bound, and no earlier nonce from `n0` does; moreover
`light_verify` accepts exactly the nonces whose light mix meets the bound. -/
theorem C4_mine_difficulty (H : List ℕ → ℕ) (dset : List (List ℕ))
    (sset : List (List ℕ)) (p : Params) (header : List ℕ)
    (n0 fuel n nonce : ℕ) (hm : mine H dset p header n0 fuel = some n) :
    (n0 ≤ n ∧ hashimoto H dset p.lookups header n ≤ 2 ^ 512 / p.diff ∧
      ∀ m, n0 ≤ m → m < n →
        ¬ (hashimoto H dset p.lookups header m ≤ 2 ^ 512 / p.diff)) ∧
    (light_verify H p sset header nonce = true ↔
      light_hashimoto H p sset header nonce ≤ 2 ^ 512 / p.diff) :=
  ⟨mine_spec H dset p header fuel n0 n hm, by simp [light_verify]⟩

set_option maxRecDepth 100000 in
/-- C4 witness: a concrete mining run that succeeds immediately. -/
theorem C4_witness :
    ((0 ≤ 0 ∧ hashimoto Hzero [[0]] pW.lookups [1] 0 ≤ 2 ^ 512 / pW.diff ∧
      ∀ m, 0 ≤ m → m < 0 →
        ¬ (hashimoto Hzero [[0]] pW.lookups [1] m ≤ 2 ^ 512 / pW.diff)) ∧
    (light_verify Hzero pW [[48]] [1] 0 = true ↔
      light_hashimoto Hzero pW [[48]] [1] 0 ≤ 2 ^ 512 / pW.diff)) :=
  C4_mine_difficulty Hzero [[0]] [[48]] pW [1] 0 1 0 0 (by decide)

/-! ### Update locality -/

lemma getD_set_self (l : List (List ℕ)) (i : ℕ) (a : List ℕ)
    (h : i < l.length) : (l.set i a).getD i [] = a := by
  rw [List.getD_eq_getElem?_getD, List.getElem?_set_self h]
  rfl

lemma getD_set_ne (l : List (List ℕ)) (i j : ℕ) (a : List ℕ) (h : i ≠ j) :
    (l.set i a).getD j [] = l.getD j [] := by
  rw [List.getD_eq_getElem?_getD, List.getElem?_set_ne h,
      ← List.getD_eq_getElem?_getD]

/-- C7: `update_daggerset` replaces exactly the slot
`idx = decode_int(seed) mod numdags`: every other DAG slot and seed slot is
unchanged, and slot `idx` holds `produce_dag(params, seed)` and `seed`. -/
theorem C7_update_locality (H : List ℕ → ℕ) (p : Params)
    (daggerset seedset : List (List ℕ)) (seed : List ℕ)
    (hlen : daggerset.length = p.numdags) (hlen2 : seedset.length = p.numdags)
    (hpos : 1 ≤ p.numdags) :
    (∀ j, j ≠ decode_int seed % p.numdags →
      (update_daggerset H p daggerset seedset seed).1.getD j [] =
        daggerset.getD j [] ∧
      (update_daggerset H p daggerset seedset seed).2.getD j [] =
        seedset.getD j []) ∧
    (update_daggerset H p daggerset seedset seed).1.getD
        (decode_int seed % p.numdags) [] = produce_dag H p seed ∧
    (update_daggerset H p daggerset seedset seed).2.getD
        (decode_int seed % p.numdags) [] = seed := by
  have hidx : update_idx daggerset seed = decode_int seed % p.numdags := by
    unfold update_idx
    rw [hlen]
  refine ⟨?_, ?_, ?_⟩
  · intro j hj
    constructor
    · show (daggerset.set (update_idx daggerset seed)
          (produce_dag H p seed)).getD j [] = daggerset.getD j []
      rw [hidx]
      exact getD_set_ne daggerset _ j _ (fun h => hj h.symm)
    · show (seedset.set (update_idx daggerset seed) seed).getD j [] =
          seedset.getD j []
      rw [hidx]
      exact getD_set_ne seedset _ j _ (fun h => hj h.symm)
  · show (daggerset.set (update_idx daggerset seed)
        (produce_dag H p seed)).getD (decode_int seed % p.numdags) [] = _
    rw [hidx]
    exact getD_set_self daggerset _ _ (by rw [hlen]; exact Nat.mod_lt _ (by omega))
  · show (seedset.set (update_idx daggerset seed) seed).getD
        (decode_int seed % p.numdags) [] = seed
    rw [hidx]
    exact getD_set_self seedset _ _ (by rw [hlen2]; exact Nat.mod_lt _ (by omega))

/-- C7 witness: frame effect at a concrete instance. -/
theorem C7_witness :
    (∀ j, j ≠ decode_int [49] % pW.numdags →
      (update_daggerset HW pW [[1], [2]] [[7], [8]] [49]).1.getD j [] =
        ([[1], [2]] : List (List ℕ)).getD j [] ∧
      (update_daggerset HW pW [[1], [2]] [[7], [8]] [49]).2.getD j [] =
        ([[7], [8]] : List (List ℕ)).getD j []) ∧
    (update_daggerset HW pW [[1], [2]] [[7], [8]] [49]).1.getD
        (decode_int [49] % pW.numdags) [] = produce_dag HW pW [49] ∧
    (update_daggerset HW pW [[1], [2]] [[7], [8]] [49]).2.getD
        (decode_int [49] % pW.numdags) [] = [49] :=
  C7_update_locality HW pW [[1], [2]] [[7], [8]] [49] (by decide) (by decide)
    (by decide)

/-! ### No index-out-of-range failures in the source -/

/-- C9 (amended): neither operation can fail with an `IndexOutOfRange` error.
A quick-calc call with any `pos` — in particular `pos ≥ dag_size` — returns
the k2dr recurrence value (the entry a DAG of `pos + 1` entries would hold,
since `quick_calc` never reads `dag_size`), and `update_daggerset` derives its
slot index as `decode_int(seed) mod len(daggerset)`, which is always in
range. -/
theorem C9_no_bounds_failure (H : List ℕ → ℕ) (p : Params) (seed : List ℕ)
    (pos : ℕ) (m : ℕ → Option ℕ) (daggerset : List (List ℕ))
    (hd : 2 ≤ p.d) (hm : ∀ j, j ≠ 0 → m j = none)
    (hne : 1 ≤ daggerset.length) :
    quick_calc H p seed pos m =
      (produce_dag H { p with dag_size := pos + 1 } seed).getD pos 0 ∧
    update_idx daggerset seed < daggerset.length := by
  constructor
  · exact quick_calc_eq_dag H { p with dag_size := pos + 1 } seed pos m hd
      (Nat.lt_succ_self pos)
      (by intro j v hj0 hj hmj; rw [hm j hj0] at hmj; cases hmj)
  · exact Nat.mod_lt _ (by omega)

set_option maxRecDepth 10000 in
/-- C9 counterexample: a quick-calc call with `pos = dag_size` returns a
normal value (here `256`) instead of failing. -/
theorem C9_counterexample :
    quick_calc HW pW [48] pW.dag_size (fun _ => none) = 256 := by decide

/-- C9 witness: the amended behavior at a concrete out-of-range position. -/
theorem C9_witness :
    quick_calc HW pW [48] 3 (fun _ => none) =
      (produce_dag HW { pW with dag_size := 3 + 1 } [48]).getD 3 0 ∧
    update_idx [[0]] [48] < ([[0]] : List (List ℕ)).length :=
  C9_no_bounds_failure HW pW [48] 3 (fun _ => none) [[0]] (by decide)
    (fun _ _ => rfl) (by decide)

/-! ### The byte codec -/

lemma encodeLoop_length :
    ∀ (n x : ℕ) (o : List ℕ), (encodeLoop n x o).length = n + o.length := by
  intro n
  induction n with
  | zero => intro x o; simp [encodeLoop]
  | succ n ih =>
    intro x o
    show (encodeLoop n (x / 256) (x % 256 :: o)).length = n + 1 + o.length
    rw [ih]
    simp only [List.length_cons]
    omega

lemma encodeLoop_foldl :
    ∀ (n x : ℕ) (o : List ℕ) (a : ℕ),
      (encodeLoop n x o).foldl (fun acc c => acc * 256 + c) a =
        o.foldl (fun acc c => acc * 256 + c) (a * 256 ^ n + x % 256 ^ n) := by
  intro n
  induction n with
  | zero =>
    intro x o a
    show o.foldl _ a = o.foldl _ (a * 256 ^ 0 + x % 256 ^ 0)
    simp [Nat.mod_one]
  | succ n ih =>
    intro x o a
    show (encodeLoop n (x / 256) (x % 256 :: o)).foldl _ a = _
    rw [ih]
    show o.foldl _ ((a * 256 ^ n + x / 256 % 256 ^ n) * 256 + x % 256) = _
    suffices h : (a * 256 ^ n + x / 256 % 256 ^ n) * 256 + x % 256 =
        a * 256 ^ (n + 1) + x % 256 ^ (n + 1) by rw [h]
    rw [pow_succ']
    rw [@Nat.mod_mul 256 (256 ^ n) x]
    ring

lemma encodeLoop_mod :
    ∀ (n x : ℕ) (o : List ℕ), encodeLoop n x o = encodeLoop n (x % 256 ^ n) o := by
  intro n
  induction n with
  | zero => intro x o; rfl
  | succ n ih =>
    intro x o
    show encodeLoop n (x / 256) (x % 256 :: o) =
      encodeLoop n (x % 256 ^ (n + 1) / 256) (x % 256 ^ (n + 1) % 256 :: o)
    have h1 : x % 256 ^ (n + 1) % 256 = x % 256 :=
      Nat.mod_mod_of_dvd x (dvd_pow_self 256 (Nat.succ_ne_zero n))
    have h2 : x % 256 ^ (n + 1) / 256 = x / 256 % 256 ^ n := by
      rw [pow_succ']
      exact Nat.mod_mul_right_div_self x 256 (256 ^ n)
    rw [h1, h2]
    exact ih (x / 256) (x % 256 :: o)

lemma encodeLoop_bytes :
    ∀ (n x : ℕ) (o : List ℕ),
      encodeLoop n x o =
        ((List.range n).map (fun j => x / 256 ^ (n - 1 - j) % 256)) ++ o := by
  intro n
  induction n with
  | zero => intro x o; simp [encodeLoop]
  | succ n ih =>
    intro x o
    show encodeLoop n (x / 256) (x % 256 :: o) = _
    rw [ih]
    rw [List.range_succ, List.map_append, List.append_assoc]
    congr 1
    · apply List.map_congr_left
      intro j hj
      have hjn : j < n := List.mem_range.mp hj
      have hdd : x / 256 / 256 ^ (n - 1 - j) = x / 256 ^ (n + 1 - 1 - j) := by
        rw [Nat.div_div_eq_div_mul]
        congr 1
        rw [← pow_succ']
        congr 1
        omega
      rw [hdd]
    · simp only [List.map_cons, List.map_nil, List.singleton_append]
      have h0 : n + 1 - 1 - n = 0 := by omega
      rw [h0]
      norm_num

/-- C10: `encode_int` produces exactly 64 big-endian bytes (zero-padded on the
left), `decode_int` inverts it for every `n < 256^64`, and for larger `n` the
encoding keeps only the low-order 64 bytes. -/
theorem C10_encode_roundtrip (n : ℕ) :
    (encode_int n).length = 64 ∧
    encode_int n = (List.range 64).map (fun j => n / 256 ^ (63 - j) % 256) ∧
    (n < 256 ^ 64 → decode_int (encode_int n) = n) ∧
    encode_int n = encode_int (n % 256 ^ 64) := by
  refine ⟨?_, ?_, ?_, ?_⟩
  · show (encodeLoop 64 n []).length = 64
    rw [encodeLoop_length]
    rfl
  · show encodeLoop 64 n [] = _
    rw [encodeLoop_bytes]
    simp only [List.append_nil]
  · intro h
    show (encodeLoop 64 n []).foldl _ 0 = n
    rw [encodeLoop_foldl]
    show 0 * 256 ^ 64 + n % 256 ^ 64 = n
    rw [Nat.zero_mul, Nat.zero_add, Nat.mod_eq_of_lt h]
  · exact encodeLoop_mod 64 n []

/-- C10 witness: the round trip at a concrete value. -/
theorem C10_witness : decode_int (encode_int 300) = 300 :=
  (C10_encode_roundtrip 300).2.2.1 (by norm_num)
